import Mathlib

/-!
Verification of the document-normalization and retrieval-augmented query
pipeline (a Python RAG project: `data_handler.py`, `pipeline.py`, `config.py`).
Strings are modelled as `List Char`; Python `dict`s as association lists with
insertion-order semantics; fallible Python code returns `Option`/`Except`.
Each definition is a shallow embedding of the correspondingly named Python
function, translated statement by statement from the source.
-/

set_option autoImplicit false

namespace RagPipeline

/-! ### Python string primitives -/

/-- Embeds Python `s.split(sep)`: splits on every occurrence of `sep`,
keeping empty pieces, so the result is always non-empty
(`"".split('.') == [""]`, `"a..b".split('.') == ["a","","b"]`). -/
def pySplit (sep : Char) : List Char → List (List Char)
  | [] => [[]]
  | c :: rest =>
    if c = sep then [] :: pySplit sep rest
    else
      match pySplit sep rest with
      | [] => [[c]]
      | f :: r => (c :: f) :: r

/-- Last element of a non-empty list, as Python's `[-1]` index; `pySplit`
always returns a non-empty list, so the `[]` case is never reached. -/
def lastPiece : List (List Char) → List Char
  | [] => []
  | [x] => x
  | _ :: r => lastPiece r

/-- Embeds `file.split(".")[-1]` (data_handler.py line 83): the piece of the
name after the last dot, or the whole name when it has no dot. -/
def extOf (name : List Char) : List Char :=
  lastPiece (pySplit '.' name)

/-- Embeds Python `s.split(sep, 1)`: `none` when `sep` is absent (so that a
subsequent `[1]` index raises `IndexError`), otherwise the pieces before and
after the first occurrence. -/
def pySplitOnce (sep : Char) : List Char → Option (List Char × List Char)
  | [] => none
  | c :: rest =>
    if c = sep then some ([], rest)
    else (pySplitOnce sep rest).map (fun p => (c :: p.1, p.2))

/-- Whitespace characters stripped by Python `str.strip()` (ASCII range:
space, tab, newline, carriage return, vertical tab, form feed). -/
def pyIsSpace (c : Char) : Bool :=
  c = ' ' || c = '\t' || c = '\n' || c = '\r' || c = Char.ofNat 11 || c = Char.ofNat 12

/-- Drops trailing whitespace, the second half of Python `str.strip()`. -/
def dropTrailingWs (l : List Char) : List Char :=
  (l.reverse.dropWhile pyIsSpace).reverse

/-- Embeds Python `s.strip()`: drops leading and trailing whitespace. -/
def pyStrip (s : List Char) : List Char :=
  dropTrailingWs (s.dropWhile pyIsSpace)

/-- Embeds `Path(file).name`, the final path component (after the last `/`). -/
def pyBasename (s : List Char) : List Char :=
  (s.reverse.takeWhile (fun c => c ≠ '/')).reverse

/-- Embeds `Path(file).stem` for a path: the final component minus its last
dot-suffix, where a leading-dot-only name (such as `".txt"`) has no suffix. -/
def pyStem (s : List Char) : List Char :=
  let nm := pyBasename s
  let pre := ((nm.reverse.dropWhile (fun c => c ≠ '.')).drop 1).reverse
  if '.' ∈ nm ∧ pre ≠ [] then pre else nm

/-! ### Discovery (`DataHandler.load_data`, data_handler.py lines 78-91) -/

/-- Accepted extensions, `self.file_types` (data_handler.py line 74). -/
def file_types : List (List Char) :=
  ["pdf".toList, "docx".toList, "txt".toList, "pptx".toList, "nxml".toList]

/-- Outcome of the discovery loop body for one file. -/
inductive FileAction where
  | keep
  | ignore
  | delete
  deriving DecidableEq, Repr

/-- Embeds the body of the `for file in files` loop of `load_data`
(data_handler.py lines 83-91): keep the file when `file.split(".")[-1]` is in
`file_types`, silently skip a literal `.gitkeep`, otherwise delete it. -/
def loadAction (name : List Char) : FileAction :=
  if extOf name ∈ file_types then FileAction.keep
  else if name = ".gitkeep".toList then FileAction.ignore
  else FileAction.delete

/-! ### Title sanitization (`DataHandler.clean_data`, lines 117-120) -/

/-- The characters removed from titles, `invalid_chars` (line 118). -/
def invalid_chars : List Char := "<>:\"/\\|?*".toList

/-- Embeds lines 119-120: drop every invalid character, then strip
surrounding whitespace. -/
def sanitizeTitle (title : List Char) : List Char :=
  pyStrip (title.filter (fun c => c ∉ invalid_chars))

/-! ### Cleaning (`DataHandler.clean_data`, data_handler.py lines 93-128) -/

/-- Result of one extractor call: the Python pair `(title, text)`, either
component possibly `None`. -/
abbrev Extracted := Option (List Char) × Option (List Char)

/-- Embeds a Python `dict` assignment `d[k] = v`: replace the value in place
when the key is present (keys are unique by construction), else append. -/
def dictInsert {V : Type} (k : List Char) (v : V) :
    List (List Char × V) → List (List Char × V)
  | [] => [(k, v)]
  | p :: d => if p.1 = k then (k, v) :: d else p :: dictInsert k v d

/-- Embeds a Python `dict` lookup `d[k]` (`none` models a `KeyError`). -/
def dictGet {V : Type} (k : List Char) (d : List (List Char × V)) : Option V :=
  (d.find? (fun p => p.1 == k)).map Prod.snd

/-- State built by the `clean_data` loop: the in-memory `self.data_dict` and
the `(filename, content)` pairs written to the cleaned-data area, in order. -/
structure CleanState where
  data_dict : List (List Char × List Char)
  written : List (List Char × List Char)
  deriving DecidableEq, Repr

/-- Embeds one iteration of the `for file in tqdm(self.data)` loop of
`clean_data` (lines 112-128), after the extractor call: a `None` title or text
is logged and skipped (line 112-114); otherwise `self.data_dict[title] = text`
records the raw title (line 115), and the sanitized title (lines 117-120)
names the file written to the cleaned-data area (lines 123-128). -/
def cleanStep (st : CleanState) (r : Extracted) : CleanState :=
  match r with
  | (some title, some text) =>
      ⟨dictInsert title text st.data_dict,
        st.written ++ [(sanitizeTitle title ++ ".txt".toList, text)]⟩
  | _ => st

/-- Embeds `clean_data` over the list of per-file extraction results, starting
from the empty `data_dict` (line 75) and nothing written. -/
def clean_data (rs : List Extracted) : CleanState :=
  rs.foldl cleanStep ⟨[], []⟩

/-- The successful extraction results, in order, with their raw titles. -/
def successes (rs : List Extracted) : List (List Char × List Char) :=
  rs.filterMap (fun r =>
    match r with
    | (some t, some x) => some (t, x)
    | _ => none)

/-- Text of the last successfully extracted document carrying the raw title
`t`, later results taking priority. -/
def lastExtracted (t : List Char) : List Extracted → Option (List Char)
  | [] => none
  | r :: rs =>
    (lastExtracted t rs).or
      (match r with
       | (some a, some x) => if a = t then some x else none
       | _ => none)

/-- Embeds `__clean_txt` (lines 217-236) given the file's path and raw
content: the content is returned verbatim (even when empty) and the title is
the filename stem; no component is ever `None`. -/
def clean_txt (file : List Char) (content : List Char) : Extracted :=
  (some (pyStem file), some content)

/-! ### PDF text cleaning (`DataHandler.__clean_pdf`, lines 183-215) -/

/-- Python `\w` restricted to the ASCII range: letters, digits, underscore. -/
def isWordChar (c : Char) : Bool :=
  c.isAlphanum || c = '_'

/-- Embeds `re.sub(r"(\w+)-\n(\w+)", r"\1\2", text)` (line 209). The scan
moves left to right; at a word character the greedy `\w+` reads the maximal
word run, and when that run is followed by `-`, a newline and another word
run, the two runs are emitted joined and the scan resumes after the second run
(Python substitutes leftmost non-overlapping matches). The fuel starts at the
text length and each step consumes at least one character, so it never runs
out. -/
def hyphenFixAux : Nat → List Char → List Char
  | 0, l => l
  | _ + 1, [] => []
  | fuel + 1, c :: rest =>
    if isWordChar c then
      match (c :: rest).dropWhile isWordChar with
      | '-' :: '\n' :: tail =>
        if tail.takeWhile isWordChar = [] then c :: hyphenFixAux fuel rest
        else
          (c :: rest).takeWhile isWordChar ++ tail.takeWhile isWordChar
            ++ hyphenFixAux fuel (tail.dropWhile isWordChar)
      | _ => c :: hyphenFixAux fuel rest
    else c :: hyphenFixAux fuel rest

/-- The hyphenated-line-break fix of line 209 on a whole text. -/
def hyphenFix (l : List Char) : List Char :=
  hyphenFixAux l.length l

/-- Embeds `re.sub(r"(?<!\n)\n(?!\n)", " ", text)` (line 212): a newline whose
original neighbours are both not newlines becomes a space; `prev` carries the
character of the original text just before the current position (lookarounds
inspect the original text). -/
def collapseNlAux (prev : Option Char) : List Char → List Char
  | [] => []
  | c :: rest =>
    if c = '\n' then
      if prev ≠ some '\n' ∧ rest.head? ≠ some '\n' then
        ' ' :: collapseNlAux (some '\n') rest
      else '\n' :: collapseNlAux (some '\n') rest
    else c :: collapseNlAux (some c) rest

/-- The single-newline collapse of line 212 on a whole text. -/
def collapseNl (l : List Char) : List Char :=
  collapseNlAux none l

/-- Embeds the text transformation of `__clean_pdf` (lines 208-212), applied
to the per-page text already joined with blank lines (line 204). -/
def cleanPdfText (l : List Char) : List Char :=
  collapseNl (hyphenFix l)

/-- Detects a surviving hyphenated line-break word split: a word character
followed by `-`, a newline and a word character. -/
def hasHyphenSplit : List Char → Bool
  | a :: b :: c :: d :: rest =>
    (isWordChar a && b == '-' && c == '\n' && isWordChar d)
      || hasHyphenSplit (b :: c :: d :: rest)
  | _ => false

/-- Detects a lone newline (one with no newline neighbour), scanning with the
previous character. -/
def hasLoneNl (prev : Option Char) : List Char → Bool
  | [] => false
  | c :: rest =>
    if c = '\n' then
      (decide (prev ≠ some '\n') && decide (rest.head? ≠ some '\n'))
        || hasLoneNl (some '\n') rest
    else hasLoneNl (some c) rest

/-! ### NXML extraction (`DataHandler.__clean_nxml`, lines 283-328) -/

/-- An XML element as `lxml` exposes it: tag, attributes, the text directly
inside the element before its first child (`.text`, `none` when absent), and
the child elements in document order. -/
inductive Xml where
  | elem (tag : String) (attrs : List (String × String)) (text : Option String)
      (children : List Xml)

/-- Tag of an element. -/
def xmlTag : Xml → String
  | .elem t _ _ _ => t

/-- Embeds `element.get(name)`: the value of an attribute, or `None`. -/
def xmlGet (name : String) : Xml → Option String
  | .elem _ attrs _ _ => (attrs.find? (fun p => p.1 == name)).map Prod.snd

/-- Text directly inside an element (`element.text`). -/
def xmlText : Xml → Option String
  | .elem _ _ t _ => t

/-- Child elements of an element, in document order. -/
def xmlChildren : Xml → List Xml
  | .elem _ _ _ cs => cs

mutual

/-- Proper descendants of an element in document (pre)order, as traversed by
`root.findall(".//...")`. -/
def descendants : Xml → List Xml
  | .elem _ _ _ cs => descendantsList cs

/-- Descendants-or-self of each element of a forest, in document order. -/
def descendantsList : List Xml → List Xml
  | [] => []
  | c :: cs => c :: descendants c ++ descendantsList cs

end

/-- Embeds `root.find(".//title-group/title")` (line 305): the first `title`
child of a descendant `title-group` element, in document order. -/
def findTGTitle (root : Xml) : Option Xml :=
  ((descendants root).filter (fun d => xmlTag d == "title-group")).findSome?
    (fun d => (xmlChildren d).find? (fun c => xmlTag c == "title"))

/-- Embeds `root.findall(".//sec")` (line 314): every descendant `sec`
element in document order. -/
def findSecs (root : Xml) : List Xml :=
  (descendants root).filter (fun d => xmlTag d == "sec")

/-- Python truthiness of `element.text` (lines 319, 321): neither `None` nor
the empty string. -/
def textTruthy (t : Option String) : Bool :=
  match t with
  | none => false
  | some s => s ≠ ""

/-- Embeds the inner loop of `__clean_nxml` (lines 318-322): iterate the
direct children of one `sec` in order, appending `element.text + "\n"` for
`title` and `p` children with truthy text. -/
def secContrib (sec : Xml) : String :=
  (xmlChildren sec).foldl
    (fun acc element =>
      if xmlTag element == "title" && textTruthy (xmlText element) then
        acc ++ (xmlText element).getD "" ++ "\n"
      else if xmlTag element == "p" && textTruthy (xmlText element) then
        acc ++ (xmlText element).getD "" ++ "\n"
      else acc)
    ""

/-- Embeds the `sec` filter of lines 315-317: the section contributes only
when it declares a `sec-type` attribute whose value is not
`"Continuing Education Activity"`. -/
def secKept (sec : Xml) : Bool :=
  match xmlGet "sec-type" sec with
  | none => false
  | some v => v ≠ "Continuing Education Activity"

/-- Embeds the text accumulation of lines 313-322 over all descendant `sec`
elements. -/
def nxmlBodyText (root : Xml) : String :=
  (findSecs root).foldl
    (fun acc sec => if secKept sec then acc ++ secContrib sec else acc)
    ""

/-- Renders a Python value in an f-string: `None` prints as `"None"`. -/
def pyFString (t : Option String) : String :=
  match t with
  | none => "None"
  | some s => s

/-- Embeds `__clean_nxml` (lines 283-328) on the parsed tree: an absent
`title-group/title` element raises `AttributeError`, caught and turned into
`(None, None)` (lines 304-308); empty accumulated text returns `(None, None)`
(lines 324-326); otherwise the title is prefixed with the corpus label
(line 328). -/
def clean_nxml (root : Xml) : Option (String × String) :=
  match findTGTitle root with
  | none => none
  | some el =>
    let text := nxmlBodyText root
    if text = "" then none
    else some ("StatPearls Chapter: " ++ pyFString (xmlText el), text)

/-- Concatenation of a list of strings, for spec-side descriptions. -/
def joinAll : List String → String
  | [] => ""
  | s :: rest => s ++ joinAll rest

/-- Spec-side reading of one qualifying section's contribution: the text of
its direct child `title` and `p` elements, each followed by a newline, in
document order (children with absent or empty text contribute nothing). -/
def specSecText (sec : Xml) : String :=
  joinAll ((xmlChildren sec).filterMap (fun c =>
    if (xmlTag c = "title" ∨ xmlTag c = "p") ∧ textTruthy (xmlText c) then
      some ((xmlText c).getD "" ++ "\n")
    else none))

/-- Spec-side reading of the whole extracted text: concatenation, in document
order, over every `sec` that declares a `sec-type` other than
`"Continuing Education Activity"`, of that section's contribution. -/
def specNxmlText (root : Xml) : String :=
  joinAll (((findSecs root).filter secKept).map specSecText)

/-- Example NXML title element used to instantiate the C6 theorem. -/
def exTitleEl : Xml :=
  .elem "title" [] (some "Asthma") []

/-- Example NXML document: a StatPearls-style article with a title group, an
excluded continuing-education section and one qualifying section. -/
def exRoot : Xml :=
  .elem "article" [] none
    [.elem "front" [] none [.elem "title-group" [] none [exTitleEl]],
     .elem "sec" [("sec-type", "Continuing Education Activity")] none
       [.elem "p" [] (some "objectives") []],
     .elem "sec" [("sec-type", "Introduction")] none
       [.elem "title" [] (some "Intro") [],
        .elem "p" [] (some "Body") [],
        .elem "label" [] (some "ignored") []]]

/-! ### Vectorization (`DataHandler.vectorize_data` and
`DataHandler.load_vectorized_data`, lines 130-181) -/

/-- Embeds the vectorizing loop of `vectorize_data` (lines 152-158) for a
non-empty `data_dict` (the empty case raises `ValueError` at line 150, after
an on-disk fallback that a non-empty mapping never reaches): each entry is
embedded and stored under its title, skipping a literal `.gitkeep` key. The
embedding collaborator is an opaque `embed_text`. -/
def vectorize_data {V : Type} (embed_text : List Char → V)
    (data_dict : List (List Char × List Char)) :
    Option (List (List Char × V)) :=
  if data_dict = [] then none
  else
    some (data_dict.foldl
      (fun acc p =>
        if p.1 = ".gitkeep".toList then acc
        else dictInsert p.1 (embed_text p.2) acc)
      [])

/-- Embeds `load_vectorized_data` (lines 170-181) reading back the artifact
written at lines 161-166: `json.dump` followed by `json.load` on a mapping
from strings to embedding vectors returns an equal mapping, so the persisted
artifact is modelled as the mapping itself. -/
def load_vectorized_data {V : Type} (artifact : List (List Char × V)) :
    List (List Char × V) :=
  artifact

/-! ### Query loop (`__set_up_and_run_LLM`, pipeline.py lines 179-228) -/

deriving instance DecidableEq for Except

/-- Exceptions a query turn can raise. -/
inductive PyError where
  | attributeError
  | indexError
  deriving DecidableEq, Repr

/-- What `vector_db.search(query)` handed back: either a `dict` of composite
id to snippet (its `.items()` in insertion order), or some non-mapping value
such as a list, which has no `.items()`. -/
inductive SearchResult where
  | dict (entries : List (List Char × List Char))
  | nonMapping

/-- Embeds `title.split('_', 1)[1]` (lines 196, 203, 221): the remainder of a
composite id after its first underscore; raises `IndexError` (modelled as
`none`) when the id has no underscore. -/
def displayName (title : List Char) : Option (List Char) :=
  (pySplitOnce '_' title).map Prod.snd

/-- Embeds the display loop of lines 195-198 over the `dict` entries: each
composite id is split on the first underscore; the first id without one
raises `IndexError` (`none`). -/
def displayNames : List (List Char × List Char) → Option (List (List Char))
  | [] => some []
  | p :: rest =>
    match displayName p.1 with
    | none => none
    | some n => (displayNames rest).map (fun ns => n :: ns)

/-- Embeds one query turn of the `while True` loop (lines 192-226) after
`vector_db.search` returned. The display loop of lines 195-198 runs first and
calls `.items()` unconditionally, so a non-mapping result raises
`AttributeError` there, before the `isinstance` guard of lines 201-208 is
reached; for a `dict`, the guard passes and the turn yields the displayed
source names (in context order) and the de-duplicated reference list of
lines 220-224 (Python's `set` iteration order is unspecified; `List.dedup`
stands for a canonical representative with the same members and no
duplicates). -/
def runTurn (r : SearchResult) :
    Except PyError (List (List Char) × List (List Char)) :=
  match r with
  | .nonMapping => .error .attributeError
  | .dict entries =>
    match displayNames entries with
    | none => .error .indexError
    | some names => .ok (names, names.dedup)

/-! ### Helper lemmas on lists -/

theorem dropWhile_idem (p : Char → Bool) (l : List Char) :
    (l.dropWhile p).dropWhile p = l.dropWhile p := by
  induction l with
  | nil => rfl
  | cons c rest ih =>
    by_cases h : p c
    · simp [List.dropWhile_cons, h, ih]
    · simp [List.dropWhile_cons, h]

theorem head?_dropWhile_false (p : Char → Bool) (l : List Char) :
    ∀ c, (l.dropWhile p).head? = some c → p c = false := by
  induction l with
  | nil => intro c h; simp at h
  | cons a rest ih =>
    intro c h
    by_cases ha : p a
    · exact ih c (by simpa [List.dropWhile_cons, ha] using h)
    · rw [List.dropWhile_cons, if_neg ha] at h
      simp only [List.head?_cons, Option.some.injEq] at h
      subst h
      exact Bool.eq_false_iff.mpr ha

theorem dropWhile_eq_self_of_head (p : Char → Bool) (l : List Char)
    (h : ∀ c, l.head? = some c → p c = false) : l.dropWhile p = l := by
  cases l with
  | nil => rfl
  | cons a rest => simp [List.dropWhile_cons, h a rfl]

theorem mem_of_mem_dropWhile (p : Char → Bool) (a : Char) (l : List Char)
    (h : a ∈ l.dropWhile p) : a ∈ l := by
  induction l with
  | nil => simp at h
  | cons c rest ih =>
    by_cases hc : p c
    · exact List.mem_cons_of_mem c (ih (by simpa [List.dropWhile_cons, hc] using h))
    · simpa [List.dropWhile_cons, hc] using h

theorem head?_append_left (x t : List Char) (h : x ≠ []) :
    (x ++ t).head? = x.head? := by
  cases x with
  | nil => exact absurd rfl h
  | cons a r => simp

theorem dropTrailingWs_append (l : List Char) :
    l = dropTrailingWs l ++ (l.reverse.takeWhile pyIsSpace).reverse := by
  have h := List.takeWhile_append_dropWhile (p := pyIsSpace) (l := l.reverse)
  calc l = l.reverse.reverse := (List.reverse_reverse l).symm
    _ = (l.reverse.takeWhile pyIsSpace ++ l.reverse.dropWhile pyIsSpace).reverse := by
        rw [h]
    _ = dropTrailingWs l ++ (l.reverse.takeWhile pyIsSpace).reverse := by
        rw [List.reverse_append]; rfl

theorem dropTrailingWs_idem (l : List Char) :
    dropTrailingWs (dropTrailingWs l) = dropTrailingWs l := by
  simp [dropTrailingWs, List.reverse_reverse, dropWhile_idem]

theorem mem_dropTrailingWs (a : Char) (l : List Char)
    (h : a ∈ dropTrailingWs l) : a ∈ l := by
  rw [dropTrailingWs, List.mem_reverse] at h
  exact List.mem_reverse.mp (mem_of_mem_dropWhile _ _ _ h)

theorem mem_pyStrip (a : Char) (l : List Char) (h : a ∈ pyStrip l) : a ∈ l :=
  mem_of_mem_dropWhile _ _ _ (mem_dropTrailingWs a _ h)

theorem dropWhile_pyStrip (l : List Char) :
    (pyStrip l).dropWhile pyIsSpace = pyStrip l := by
  apply dropWhile_eq_self_of_head
  intro c hc
  have hne : pyStrip l ≠ [] := by
    intro h0
    rw [h0] at hc
    simp at hc
  have hdec := dropTrailingWs_append (l.dropWhile pyIsSpace)
  rw [show dropTrailingWs (l.dropWhile pyIsSpace) = pyStrip l from rfl] at hdec
  have h1 : (l.dropWhile pyIsSpace).head? = some c := by
    rw [hdec, head?_append_left _ _ hne]
    exact hc
  exact head?_dropWhile_false pyIsSpace l c h1

theorem pyStrip_idem (l : List Char) : pyStrip (pyStrip l) = pyStrip l := by
  show dropTrailingWs ((pyStrip l).dropWhile pyIsSpace) = pyStrip l
  rw [dropWhile_pyStrip]
  show dropTrailingWs (dropTrailingWs (l.dropWhile pyIsSpace)) = _
  exact dropTrailingWs_idem _

theorem pyStrip_eq_self (l : List Char)
    (h1 : ∀ c, l.head? = some c → pyIsSpace c = false)
    (h2 : ∀ c, l.getLast? = some c → pyIsSpace c = false) :
    pyStrip l = l := by
  show dropTrailingWs (l.dropWhile pyIsSpace) = l
  rw [dropWhile_eq_self_of_head pyIsSpace l h1]
  show (l.reverse.dropWhile pyIsSpace).reverse = l
  rw [dropWhile_eq_self_of_head pyIsSpace l.reverse, List.reverse_reverse]
  intro c hc
  exact h2 c (by rwa [List.head?_reverse] at hc)

/-! ### Resolution of claim C8 -/

/-- Claim C8 (confirmed): title sanitization (removing the characters
`<>:"/\|?*` then trimming surrounding whitespace) is idempotent, and it is
the identity on every already-safe title (no invalid character, no leading or
trailing whitespace character). -/
theorem sanitizeTitle_idempotent_identity :
    (∀ s : List Char, sanitizeTitle (sanitizeTitle s) = sanitizeTitle s) ∧
    (∀ s : List Char, (∀ c ∈ s, c ∉ invalid_chars) →
      (∀ c, s.head? = some c → pyIsSpace c = false) →
      (∀ c, s.getLast? = some c → pyIsSpace c = false) →
      sanitizeTitle s = s) := by
  constructor
  · intro s
    have hf : (pyStrip (s.filter (fun c => c ∉ invalid_chars))).filter
        (fun c => c ∉ invalid_chars)
        = pyStrip (s.filter (fun c => c ∉ invalid_chars)) := by
      rw [List.filter_eq_self]
      intro a ha
      exact (List.mem_filter.mp (mem_pyStrip a _ ha)).2
    simp only [sanitizeTitle]
    rw [hf, pyStrip_idem]
  · intro s hinv hhead hlast
    have hf : s.filter (fun c => c ∉ invalid_chars) = s := by
      rw [List.filter_eq_self]
      intro a ha
      simpa using hinv a ha
    simp only [sanitizeTitle]
    rw [hf]
    exact pyStrip_eq_self s hhead hlast

/-- Witness for C8: the theorem applied to the concrete safe title `"ab"`. -/
theorem sanitizeTitle_idempotent_identity_witness :
    sanitizeTitle "ab".toList = "ab".toList :=
  sanitizeTitle_idempotent_identity.2 "ab".toList (by decide) (by decide)
    (by decide)

/-! ### Lemmas on `pySplit` and `extOf` -/

theorem pySplit_ne_nil (sep : Char) (s : List Char) : pySplit sep s ≠ [] := by
  induction s with
  | nil => simp [pySplit]
  | cons c rest ih =>
    by_cases h : c = sep
    · simp [pySplit, h]
    · cases hs : pySplit sep rest with
      | nil => exact absurd hs ih
      | cons f r => simp [pySplit, h, hs]

theorem pySplit_of_not_mem (sep : Char) (s : List Char) (h : sep ∉ s) :
    pySplit sep s = [s] := by
  induction s with
  | nil => rfl
  | cons c rest ih =>
    have hc : ¬ c = sep := by
      intro e
      exact h (by simp [e])
    have hr : sep ∉ rest := fun m => h (List.mem_cons_of_mem c m)
    simp [pySplit, hc, ih hr]

theorem pySplit_length_of_mem (sep : Char) (s : List Char) (h : sep ∈ s) :
    2 ≤ (pySplit sep s).length := by
  induction s with
  | nil => simp at h
  | cons c rest ih =>
    by_cases hc : c = sep
    · cases hs : pySplit sep rest with
      | nil => exact absurd hs (pySplit_ne_nil sep rest)
      | cons f r => simp [pySplit, hc, hs]
    · have hr : sep ∈ rest := by
        rcases List.mem_cons.mp h with he | hm
        · exact absurd he.symm hc
        · exact hm
      cases hs : pySplit sep rest with
      | nil => exact absurd hs (pySplit_ne_nil sep rest)
      | cons f r =>
        have h2 := ih hr
        rw [hs] at h2
        simp at h2
        simp [pySplit, hc, hs]
        omega

theorem lastPiece_cons_of_ne_nil (x : List Char) (l : List (List Char))
    (h : l ≠ []) : lastPiece (x :: l) = lastPiece l := by
  cases l with
  | nil => exact absurd rfl h
  | cons a r => rfl

theorem extOf_no_dot (s : List Char) (h : '.' ∉ s) : extOf s = s := by
  rw [extOf, pySplit_of_not_mem '.' s h]
  rfl

theorem extOf_append (pre ext : List Char) (h : '.' ∉ ext) :
    extOf (pre ++ '.' :: ext) = ext := by
  induction pre with
  | nil =>
    rw [List.nil_append, extOf]
    have : pySplit '.' ('.' :: ext) = [] :: pySplit '.' ext := by
      simp [pySplit]
    rw [this, pySplit_of_not_mem '.' ext h]
    rfl
  | cons c pre ih =>
    have hmem : '.' ∈ pre ++ '.' :: ext := by simp
    by_cases hc : c = '.'
    · have : pySplit '.' (c :: (pre ++ '.' :: ext))
          = [] :: pySplit '.' (pre ++ '.' :: ext) := by
        simp [pySplit, hc]
      rw [List.cons_append, extOf, this,
        lastPiece_cons_of_ne_nil _ _ (pySplit_ne_nil '.' _)]
      exact ih
    · cases hs : pySplit '.' (pre ++ '.' :: ext) with
      | nil => exact absurd hs (pySplit_ne_nil '.' _)
      | cons f r =>
        have hr : r ≠ [] := by
          have h2 := pySplit_length_of_mem '.' _ hmem
          rw [hs] at h2
          simp at h2
          intro h0
          rw [h0] at h2
          simp at h2
        have hstep : pySplit '.' (c :: (pre ++ '.' :: ext)) = (c :: f) :: r := by
          simp [pySplit, hc, hs]
        rw [List.cons_append, extOf, hstep,
          lastPiece_cons_of_ne_nil _ _ hr]
        have : extOf (pre ++ '.' :: ext) = ext := ih
        rw [extOf, hs, lastPiece_cons_of_ne_nil _ _ hr] at this
        exact this

/-! ### Resolution of claim C2 -/

/-- Counterexample for C2: the file `a.PDF` has extension `PDF`, whose
lowercase form `pdf` is in the supported set, yet discovery deletes it — the
comparison at data_handler.py line 83 is case-sensitive, not
case-insensitive. -/
theorem loadAction_uppercase_deleted :
    (extOf "a.PDF".toList).map Char.toLower = "pdf".toList ∧
    "pdf".toList ∈ file_types ∧
    loadAction "a.PDF".toList = FileAction.delete := by
  refine ⟨?_, ?_, ?_⟩ <;> decide

/-- Claim C2 (corrected): a discovered file whose name is `pre ++ "." ++ ext`
with `ext` dot-free is kept exactly when `ext` is — case-sensitively — one of
`pdf`, `docx`, `txt`, `pptx`, `nxml`; otherwise a file named exactly
`.gitkeep` is silently ignored, and every other file is deleted. -/
theorem loadAction_trichotomy (pre ext : List Char) (h : '.' ∉ ext) :
    (loadAction (pre ++ '.' :: ext) = FileAction.keep ↔ ext ∈ file_types) ∧
    (loadAction (pre ++ '.' :: ext) = FileAction.ignore ↔
      ext ∉ file_types ∧ pre ++ '.' :: ext = ".gitkeep".toList) ∧
    (loadAction (pre ++ '.' :: ext) = FileAction.delete ↔
      ext ∉ file_types ∧ pre ++ '.' :: ext ≠ ".gitkeep".toList) := by
  rw [loadAction, extOf_append pre ext h]
  split_ifs with h1 h2 <;> refine ⟨?_, ?_, ?_⟩ <;> simp_all

/-- Witness for C2: the amended theorem applied to the file name `a.pdf`,
which is kept. -/
theorem loadAction_trichotomy_witness :
    loadAction ("a".toList ++ '.' :: "pdf".toList) = FileAction.keep :=
  (loadAction_trichotomy "a".toList "pdf".toList (by decide)).1.mpr (by decide)

/-! ### Resolution of claim C10 -/

/-- Claim C10 (confirmed): discovery classifies a file solely by the piece
after the last dot of its name; a dot-free name is its own extension, so such
a file is kept exactly when the whole name is a supported extension string
(a file named exactly `pdf` is kept) and deleted otherwise, while a hidden
dotfile such as `.txt` (empty stem) is kept. -/
theorem loadAction_no_dot (s : List Char) (h : '.' ∉ s) :
    (loadAction s = FileAction.keep ↔ s ∈ file_types) ∧
    (s ∉ file_types → loadAction s = FileAction.delete) ∧
    loadAction "pdf".toList = FileAction.keep ∧
    loadAction ".txt".toList = FileAction.keep := by
  have hgk : ¬ s = ".gitkeep".toList := by
    intro h0
    exact h (by rw [h0]; decide)
  refine ⟨?_, ?_, by decide, by decide⟩
  · rw [loadAction, extOf_no_dot s h, if_neg hgk]
    split_ifs with h1 <;> simp_all
  · intro h1
    rw [loadAction, extOf_no_dot s h, if_neg h1, if_neg hgk]

/-- Witness for C10: the theorem applied to the dot-free file name `pdf`,
which is kept because its whole name is a supported extension string. -/
theorem loadAction_no_dot_witness :
    loadAction "pdf".toList = FileAction.keep :=
  (loadAction_no_dot "pdf".toList (by decide)).1.mpr (by decide)

/-! ### Lemmas on `dictInsert` and the `clean_data` fold -/

theorem dictGet_nil {V : Type} (t : List Char) :
    dictGet t ([] : List (List Char × V)) = none := rfl

theorem dictGet_cons {V : Type} (t : List Char) (p : List Char × V)
    (d : List (List Char × V)) :
    dictGet t (p :: d) = if p.1 = t then some p.2 else dictGet t d := by
  by_cases h : p.1 = t
  · rw [dictGet, List.find?_cons_of_pos _ (by simpa using h), if_pos h]
    rfl
  · rw [dictGet, List.find?_cons_of_neg _ (by simpa using h), if_neg h]
    rfl

theorem dictGet_dictInsert {V : Type} (k t : List Char) (v : V)
    (d : List (List Char × V)) :
    dictGet t (dictInsert k v d) = if k = t then some v else dictGet t d := by
  induction d with
  | nil =>
    simp only [dictInsert]
    rw [dictGet_cons, dictGet_nil]
  | cons p d ih =>
    simp only [dictInsert]
    by_cases hp : p.1 = k
    · rw [if_pos hp, dictGet_cons, dictGet_cons]
      by_cases h : k = t
      · simp [h]
      · have hpt : ¬ p.1 = t := by rw [hp]; exact h
        simp [h, hpt]
    · rw [if_neg hp, dictGet_cons, dictGet_cons, ih]
      by_cases h : p.1 = t
      · have hkt : ¬ k = t := fun e => hp (by rw [h, e])
        simp [h, hkt]
      · simp [h]

theorem mem_dictInsert {V : Type} (q : List Char × V) (k : List Char) (v : V)
    (d : List (List Char × V)) (h : q ∈ dictInsert k v d) :
    q = (k, v) ∨ q ∈ d := by
  induction d with
  | nil => simpa [dictInsert] using h
  | cons p d ih =>
    by_cases hp : p.1 = k
    · rw [dictInsert, if_pos hp] at h
      rcases List.mem_cons.mp h with h1 | h1
      · exact Or.inl h1
      · exact Or.inr (List.mem_cons_of_mem p h1)
    · rw [dictInsert, if_neg hp] at h
      rcases List.mem_cons.mp h with h1 | h1
      · exact Or.inr (h1 ▸ List.mem_cons_self p d)
      · rcases ih h1 with h2 | h2
        · exact Or.inl h2
        · exact Or.inr (List.mem_cons_of_mem p h2)

theorem mem_keys_dictInsert {V : Type} (x k : List Char) (v : V)
    (d : List (List Char × V)) :
    x ∈ (dictInsert k v d).map Prod.fst ↔ x = k ∨ x ∈ d.map Prod.fst := by
  induction d with
  | nil => simp [dictInsert]
  | cons p d ih =>
    by_cases hp : p.1 = k
    · have hd : dictInsert k v (p :: d) = (k, v) :: d := by
        simp only [dictInsert, if_pos hp]
      rw [hd]
      simp only [List.map_cons, List.mem_cons, hp]
      tauto
    · have hd : dictInsert k v (p :: d) = p :: dictInsert k v d := by
        simp only [dictInsert, if_neg hp]
      rw [hd]
      simp only [List.map_cons, List.mem_cons, ih]
      tauto

theorem nodup_keys_dictInsert {V : Type} (k : List Char) (v : V)
    (d : List (List Char × V)) (h : (d.map Prod.fst).Nodup) :
    ((dictInsert k v d).map Prod.fst).Nodup := by
  induction d with
  | nil => simp [dictInsert]
  | cons p d ih =>
    rw [List.map_cons, List.nodup_cons] at h
    by_cases hp : p.1 = k
    · have hd : dictInsert k v (p :: d) = (k, v) :: d := by
        simp only [dictInsert, if_pos hp]
      rw [hd]
      simp only [List.map_cons, List.nodup_cons]
      exact ⟨hp ▸ h.1, h.2⟩
    · have hd : dictInsert k v (p :: d) = p :: dictInsert k v d := by
        simp only [dictInsert, if_neg hp]
      rw [hd]
      simp only [List.map_cons, List.nodup_cons, mem_keys_dictInsert]
      refine ⟨?_, ih h.2⟩
      rintro (h1 | h1)
      · exact hp h1
      · exact h.1 h1

theorem dictInsert_of_not_mem_keys {V : Type} (k : List Char) (v : V)
    (d : List (List Char × V)) (h : k ∉ d.map Prod.fst) :
    dictInsert k v d = d ++ [(k, v)] := by
  induction d with
  | nil => rfl
  | cons p d ih =>
    simp only [List.map_cons, List.mem_cons] at h
    push_neg at h
    have hp : ¬ p.1 = k := fun e => h.1 e.symm
    have hd : dictInsert k v (p :: d) = p :: dictInsert k v d := by
      simp only [dictInsert, if_neg hp]
    rw [hd, ih h.2, List.cons_append]

/-! ### Case equations for the `clean_data` step -/

theorem cleanStep_none_left (st : CleanState) (ox : Option (List Char)) :
    cleanStep st (none, ox) = st := rfl

theorem cleanStep_none_right (st : CleanState) (a : List Char) :
    cleanStep st (some a, none) = st := rfl

theorem cleanStep_some_dict (st : CleanState) (a x : List Char) :
    (cleanStep st (some a, some x)).data_dict = dictInsert a x st.data_dict :=
  rfl

theorem cleanStep_some_written (st : CleanState) (a x : List Char) :
    (cleanStep st (some a, some x)).written
      = st.written ++ [(sanitizeTitle a ++ ".txt".toList, x)] := rfl

theorem successes_cons_none_left (ox : Option (List Char))
    (rs : List Extracted) : successes ((none, ox) :: rs) = successes rs := rfl

theorem successes_cons_none_right (a : List Char) (rs : List Extracted) :
    successes ((some a, none) :: rs) = successes rs := rfl

theorem successes_cons_some (a x : List Char) (rs : List Extracted) :
    successes ((some a, some x) :: rs) = (a, x) :: successes rs := rfl

theorem lastExtracted_cons_none_left (t : List Char) (ox : Option (List Char))
    (rs : List Extracted) :
    lastExtracted t ((none, ox) :: rs) = lastExtracted t rs := by
  show (lastExtracted t rs).or none = lastExtracted t rs
  exact Option.or_none

theorem lastExtracted_cons_none_right (t a : List Char) (rs : List Extracted) :
    lastExtracted t ((some a, none) :: rs) = lastExtracted t rs := by
  show (lastExtracted t rs).or none = lastExtracted t rs
  exact Option.or_none

theorem lastExtracted_cons_some (t a x : List Char) (rs : List Extracted) :
    lastExtracted t ((some a, some x) :: rs)
      = (lastExtracted t rs).or (if a = t then some x else none) := rfl

theorem dictGet_foldl_cleanStep (rs : List Extracted) :
    ∀ (st : CleanState) (t : List Char),
      dictGet t (rs.foldl cleanStep st).data_dict
        = (lastExtracted t rs).or (dictGet t st.data_dict) := by
  induction rs with
  | nil => intro st t; simp [lastExtracted]
  | cons r rs ih =>
    intro st t
    obtain ⟨ot, ox⟩ := r
    rw [List.foldl_cons, ih]
    cases ot with
    | none => rw [cleanStep_none_left, lastExtracted_cons_none_left]
    | some a =>
      cases ox with
      | none => rw [cleanStep_none_right, lastExtracted_cons_none_right]
      | some x =>
        rw [cleanStep_some_dict, lastExtracted_cons_some, Option.or_assoc,
          dictGet_dictInsert]
        by_cases h : a = t <;> simp [h]

theorem nodup_keys_foldl_cleanStep (rs : List Extracted) :
    ∀ st : CleanState, (st.data_dict.map Prod.fst).Nodup →
      ((rs.foldl cleanStep st).data_dict.map Prod.fst).Nodup := by
  induction rs with
  | nil => intro st h; exact h
  | cons r rs ih =>
    intro st h
    rw [List.foldl_cons]
    apply ih
    obtain ⟨ot, ox⟩ := r
    cases ot with
    | none => exact h
    | some a =>
      cases ox with
      | none => exact h
      | some x =>
        rw [cleanStep_some_dict]
        exact nodup_keys_dictInsert a x st.data_dict h

theorem written_foldl_cleanStep (rs : List Extracted) :
    ∀ st : CleanState,
      (rs.foldl cleanStep st).written
        = st.written
          ++ (successes rs).map
            (fun p => (sanitizeTitle p.1 ++ ".txt".toList, p.2)) := by
  induction rs with
  | nil => intro st; simp [successes]
  | cons r rs ih =>
    intro st
    obtain ⟨ot, ox⟩ := r
    rw [List.foldl_cons, ih]
    cases ot with
    | none => rw [cleanStep_none_left, successes_cons_none_left]
    | some a =>
      cases ox with
      | none => rw [cleanStep_none_right, successes_cons_none_right]
      | some x =>
        rw [cleanStep_some_written, successes_cons_some, List.map_cons,
          List.append_assoc]
        rfl

theorem mem_data_dict_foldl (rs : List Extracted) :
    ∀ (st : CleanState) (p : List Char × List Char),
      p ∈ (rs.foldl cleanStep st).data_dict →
      (some p.1, some p.2) ∈ rs ∨ p ∈ st.data_dict := by
  induction rs with
  | nil => intro st p h; exact Or.inr h
  | cons r rs ih =>
    intro st p h
    rw [List.foldl_cons] at h
    rcases ih _ p h with h1 | h1
    · exact Or.inl (List.mem_cons_of_mem r h1)
    · obtain ⟨ot, ox⟩ := r
      cases ot with
      | none => exact Or.inr h1
      | some a =>
        cases ox with
        | none => exact Or.inr h1
        | some x =>
          rw [cleanStep_some_dict] at h1
          rcases mem_dictInsert p a x st.data_dict h1 with h2 | h2
          · left
            rw [h2]
            exact List.mem_cons_self _ _
          · exact Or.inr h2

/-! ### Lemmas on the PDF newline collapse -/

theorem collapseNlAux_cons_other (p : Option Char) (c : Char)
    (rest : List Char) (hc : ¬ c = '\n') :
    collapseNlAux p (c :: rest) = c :: collapseNlAux (some c) rest := by
  simp only [collapseNlAux]
  rw [if_neg hc]

theorem hasLoneNl_cons_other (q : Option Char) (c : Char) (l : List Char)
    (hc : ¬ c = '\n') : hasLoneNl q (c :: l) = hasLoneNl (some c) l := by
  simp only [hasLoneNl]
  rw [if_neg hc]

theorem collapseNlAux_cons_nl (p : Option Char) (rest : List Char) :
    collapseNlAux p ('\n' :: rest)
      = if p ≠ some '\n' ∧ rest.head? ≠ some '\n' then
          ' ' :: collapseNlAux (some '\n') rest
        else '\n' :: collapseNlAux (some '\n') rest := rfl

theorem hasLoneNl_cons_nl (q : Option Char) (l : List Char) :
    hasLoneNl q ('\n' :: l)
      = ((decide (q ≠ some '\n') && decide (l.head? ≠ some '\n'))
          || hasLoneNl (some '\n') l) := rfl

theorem hasLoneNl_collapseNlAux :
    ∀ (l : List Char) (p q : Option Char),
      (l.head? = some '\n' → (p = some '\n' ↔ q = some '\n')) →
      hasLoneNl q (collapseNlAux p l) = false := by
  intro l
  induction l with
  | nil => intro p q _hpq; rfl
  | cons c rest ih =>
    intro p q h
    by_cases hc : c = '\n'
    · subst hc
      by_cases hp : p = some '\n'
      · have hq : q = some '\n' := (h rfl).mp hp
        rw [collapseNlAux_cons_nl, if_neg (by simp [hp]), hasLoneNl_cons_nl]
        have h1 := ih (some '\n') (some '\n') (fun _ => Iff.rfl)
        simp [hq, h1]
      · by_cases hr : rest.head? = some '\n'
        · rw [collapseNlAux_cons_nl, if_neg (by simp [hr])]
          obtain ⟨rest2, hrest⟩ : ∃ rest2, rest = '\n' :: rest2 := by
            cases rest with
            | nil => simp at hr
            | cons d r2 =>
              simp only [List.head?_cons, Option.some.injEq] at hr
              exact ⟨r2, by rw [hr]⟩
          subst hrest
          have hout : (collapseNlAux (some '\n') ('\n' :: rest2)).head?
              = some '\n' := by
            rw [collapseNlAux_cons_nl, if_neg (by simp)]
            rfl
          rw [hasLoneNl_cons_nl]
          have h1 := ih (some '\n') (some '\n') (fun _ => Iff.rfl)
          simp [hout, h1]
        · rw [collapseNlAux_cons_nl, if_pos ⟨hp, hr⟩,
            hasLoneNl_cons_other _ _ _ (by decide)]
          exact ih (some '\n') (some ' ') (fun hh => absurd hh hr)
    · rw [collapseNlAux_cons_other p c rest hc, hasLoneNl_cons_other q c _ hc]
      exact ih (some c) (some c) (fun _ => Iff.rfl)

/-! ### Resolution of claim C5 -/

/-- Counterexample for C5: on the chained input `"a-\nb-\nc"` Python's
`re.sub` joins only the leftmost non-overlapping match `a-\nb`, resuming the
scan after the consumed `b`; the occurrence `b-\nc` survives the joining pass
(the final output is `"ab- c"`, not `"abc"`), so not every occurrence of
word-`-`-newline-word is joined. -/
theorem hyphenFix_chain_survivor :
    hasHyphenSplit (hyphenFix "a-\nb-\nc".toList) = true ∧
    cleanPdfText "a-\nb-\nc".toList = "ab- c".toList ∧
    cleanPdfText "a-\nb-\nc".toList ≠ "abc".toList := by
  refine ⟨by decide, by decide, by decide⟩

/-- Claim C5 (corrected): PDF cleaning joins the leftmost non-overlapping
hyphenated line-break word splits (`"micro-\nscope"` becomes `"microscope"`,
but in a chain such as `"a-\nb-\nc"` the scan resumes after the first joined
pair, leaving `"ab- c"`), and it replaces every single newline not adjacent
to another newline with a space, preserving blank-line paragraph breaks:
afterwards no lone newline remains in the text. -/
theorem cleanPdfText_spec :
    cleanPdfText "micro-\nscope".toList = "microscope".toList ∧
    cleanPdfText "Line one\nline two.".toList
      = "Line one line two.".toList ∧
    cleanPdfText "Paragraph one.\n\nParagraph two.".toList
      = "Paragraph one.\n\nParagraph two.".toList ∧
    (∀ l : List Char, hasLoneNl none (cleanPdfText l) = false) := by
  refine ⟨by decide, by decide, by decide, ?_⟩
  intro l
  exact hasLoneNl_collapseNlAux (hyphenFix l) none none (fun _ => Iff.rfl)

/-! ### Lemmas on the NXML extraction -/

theorem joinAll_cons (s : String) (l : List String) :
    joinAll (s :: l) = s ++ joinAll l := rfl

theorem secContrib_go (cs : List Xml) :
    ∀ acc : String,
      cs.foldl
        (fun acc element =>
          if xmlTag element == "title" && textTruthy (xmlText element) then
            acc ++ (xmlText element).getD "" ++ "\n"
          else if xmlTag element == "p" && textTruthy (xmlText element) then
            acc ++ (xmlText element).getD "" ++ "\n"
          else acc)
        acc
        = acc ++ joinAll (cs.filterMap (fun c =>
            if (xmlTag c = "title" ∨ xmlTag c = "p") ∧ textTruthy (xmlText c)
            then some ((xmlText c).getD "" ++ "\n")
            else none)) := by
  induction cs with
  | nil => intro acc; simp [joinAll]
  | cons c cs ih =>
    intro acc
    rw [List.foldl_cons, List.filterMap_cons]
    by_cases htr : textTruthy (xmlText c)
    · by_cases ht : xmlTag c = "title"
      · rw [ih]
        simp [ht, htr, joinAll_cons, String.append_assoc]
      · by_cases hp : xmlTag c = "p"
        · rw [ih]
          simp [ht, hp, htr, joinAll_cons, String.append_assoc]
        · rw [ih]
          simp [ht, hp, htr]
    · rw [ih]
      simp [htr]

theorem secContrib_eq_spec (sec : Xml) : secContrib sec = specSecText sec := by
  rw [secContrib, specSecText, secContrib_go]
  exact String.empty_append _

theorem nxmlBody_go (secs : List Xml) :
    ∀ acc : String,
      secs.foldl
        (fun acc sec => if secKept sec then acc ++ secContrib sec else acc) acc
        = acc ++ joinAll ((secs.filter secKept).map specSecText) := by
  induction secs with
  | nil => intro acc; simp [joinAll]
  | cons sec secs ih =>
    intro acc
    rw [List.foldl_cons]
    by_cases hk : secKept sec
    · rw [if_pos hk, ih, List.filter_cons_of_pos hk, List.map_cons,
        joinAll_cons, secContrib_eq_spec, String.append_assoc]
    · rw [if_neg hk, ih, List.filter_cons_of_neg (by simpa using hk)]

theorem nxmlBodyText_eq_spec (root : Xml) :
    nxmlBodyText root = specNxmlText root := by
  rw [nxmlBodyText, specNxmlText, nxmlBody_go]
  exact String.empty_append _

/-! ### Resolution of claim C6 -/

/-- Claim C6 (confirmed): NXML extraction, for a parsed document whose
`title-group/title` element exists and carries text, yields exactly the
concatenation, in document order over every `sec` declaring a `sec-type`
other than `"Continuing Education Activity"`, of the text of its direct child
`title` and `p` elements each followed by a newline (excluded sections
contribute nothing); an empty accumulation gives `(None, None)`, an absent
title element gives `(None, None)` without raising, and a successful result
is titled `"StatPearls Chapter: "` plus the document title. -/
theorem clean_nxml_characterization :
    (∀ (root el : Xml) (t : String),
      findTGTitle root = some el → xmlText el = some t →
      clean_nxml root
        = (if specNxmlText root = "" then none
           else some ("StatPearls Chapter: " ++ t, specNxmlText root))) ∧
    (∀ root : Xml, findTGTitle root = none → clean_nxml root = none) := by
  constructor
  · intro root el t h1 h2
    rw [clean_nxml, h1]
    simp only [← nxmlBodyText_eq_spec root, h2, pyFString]
  · intro root h
    rw [clean_nxml, h]

/-- Witness for C6: the characterization applied to a concrete
StatPearls-style document with one excluded and one qualifying section. -/
theorem clean_nxml_characterization_witness :
    clean_nxml exRoot = some ("StatPearls Chapter: Asthma", "Intro\nBody\n") := by
  have h := clean_nxml_characterization.1 exRoot exTitleEl "Asthma" rfl rfl
  rw [h]
  rfl

/-! ### Resolution of claim C3 -/

/-- Counterexample for C3: a successfully extracted document whose raw title
`a:b` contains a reserved character is recorded in the in-memory mapping under
the raw title itself, not under its sanitized form `ab`; only the written
file name uses the sanitized form (data_handler.py line 115 runs before the
sanitization of lines 117-120). -/
theorem clean_data_raw_title_key :
    (clean_data [(some "a:b".toList, some "x".toList)]).data_dict
      = [("a:b".toList, "x".toList)] ∧
    sanitizeTitle "a:b".toList ≠ "a:b".toList ∧
    (clean_data [(some "a:b".toList, some "x".toList)]).written
      = [("ab.txt".toList, "x".toList)] := by
  refine ⟨?_, ?_, ?_⟩ <;> decide

/-- Claim C3 (corrected): for every document successfully extracted during
cleaning, the key recorded in the in-memory mapping is the RAW extracted
title — sanitization applies only to the name of the written file — and when
two documents produce the same raw title the later one overwrites the earlier
(last-write-wins), the mapping keys staying pairwise distinct; every written
file is named by the sanitized title plus `.txt`. -/
theorem clean_data_mapping_spec :
    (∀ (rs : List Extracted) (t : List Char),
      dictGet t (clean_data rs).data_dict = lastExtracted t rs) ∧
    (∀ rs : List Extracted, ((clean_data rs).data_dict.map Prod.fst).Nodup) ∧
    (∀ rs : List Extracted,
      (clean_data rs).written
        = (successes rs).map
          (fun p => (sanitizeTitle p.1 ++ ".txt".toList, p.2))) := by
  refine ⟨?_, ?_, ?_⟩
  · intro rs t
    rw [clean_data, dictGet_foldl_cleanStep]
    simp [dictGet]
  · intro rs
    exact nodup_keys_foldl_cleanStep rs _ (by simp)
  · intro rs
    rw [clean_data, written_foldl_cleanStep]
    simp

/-! ### Resolution of claim C4 -/

/-- Counterexample for C4: an empty TXT file extracts to the pair
`(stem, "")` — never `(None, None)` — so `clean_data` records an entry whose
text is empty, contradicting the claimed non-emptiness of every mapping
entry. -/
theorem clean_data_empty_text_kept :
    clean_txt "doc.txt".toList [] = (some "doc".toList, some []) ∧
    ¬ (∀ p ∈ (clean_data [clean_txt "doc.txt".toList []]).data_dict,
        p.2 ≠ []) := by
  refine ⟨by decide, ?_⟩
  intro h
  exact h ("doc".toList, []) (by decide) rfl

/-- Claim C4 (corrected): `clean_data` skips a document exactly when its
extractor returned `None` for title or text; TXT extraction never does, so an
empty TXT file yields a mapping entry with empty text. Every mapping entry
does come from some successful extraction (no further filtering), and NXML —
unlike TXT — turns empty accumulated text into `(None, None)`. -/
theorem clean_data_skip_only_none :
    (∀ file content : List Char,
      clean_txt file content = (some (pyStem file), some content)) ∧
    (∀ (rs : List Extracted) (p : List Char × List Char),
      p ∈ (clean_data rs).data_dict → (some p.1, some p.2) ∈ rs) ∧
    (∀ root : Xml, nxmlBodyText root = "" → clean_nxml root = none) := by
  refine ⟨fun _ _ => rfl, ?_, ?_⟩
  · intro rs p h
    rcases mem_data_dict_foldl rs _ p h with h1 | h1
    · exact h1
    · simp at h1
  · intro root h
    rw [clean_nxml]
    cases findTGTitle root with
    | none => rfl
    | some el => simp [h]

/-- Witness for C4: the amended theorem applied to a one-document run whose
only entry indeed stems from the successful extraction. -/
theorem clean_data_skip_only_none_witness :
    (some "t".toList, some "x".toList)
      ∈ [((some "t".toList, some "x".toList) : Extracted)] :=
  clean_data_skip_only_none.2.1 [(some "t".toList, some "x".toList)]
    ("t".toList, "x".toList) (by decide)

/-! ### Lemmas on vectorization -/

theorem keys_vectorize_go {V : Type} (embed_text : List Char → V)
    (d : List (List Char × List Char)) :
    ∀ acc : List (List Char × V),
      (d.map Prod.fst).Nodup →
      (∀ k ∈ d.map Prod.fst, k ∉ acc.map Prod.fst) →
      ((d.foldl
        (fun acc p =>
          if p.1 = ".gitkeep".toList then acc
          else dictInsert p.1 (embed_text p.2) acc)
        acc).map Prod.fst)
        = acc.map Prod.fst
          ++ (d.map Prod.fst).filter (fun k => k ≠ ".gitkeep".toList) := by
  induction d with
  | nil => intro acc _ _; simp
  | cons p d ih =>
    intro acc hnd hdisj
    rw [List.foldl_cons]
    rw [List.map_cons, List.nodup_cons] at hnd
    by_cases hg : p.1 = ".gitkeep".toList
    · rw [if_pos hg,
        ih acc hnd.2 (fun k hk => hdisj k (List.mem_cons_of_mem _ hk)),
        List.map_cons, List.filter_cons_of_neg (by simp [hg])]
    · rw [if_neg hg]
      have hnotin : p.1 ∉ acc.map Prod.fst := hdisj p.1 (by simp)
      have hdisj2 : ∀ k ∈ d.map Prod.fst,
          k ∉ (dictInsert p.1 (embed_text p.2) acc).map Prod.fst := by
        intro k hk
        rw [dictInsert_of_not_mem_keys _ _ _ hnotin, List.map_append,
          List.mem_append]
        rintro (h1 | h1)
        · exact hdisj k (List.mem_cons_of_mem _ hk) h1
        · simp only [List.map_cons, List.map_nil, List.mem_singleton] at h1
          exact hnd.1 (h1 ▸ hk)
      rw [ih (dictInsert p.1 (embed_text p.2) acc) hnd.2 hdisj2,
        dictInsert_of_not_mem_keys _ _ _ hnotin, List.map_append]
      simp [hg, List.filter_cons, List.append_assoc]
      have hg2 : ¬ p.1 = ['.', 'g', 'i', 't', 'k', 'e', 'e', 'p'] := hg
      rw [if_neg hg2]

/-! ### Resolution of claim C7 -/

/-- Claim C7 (confirmed): for every non-empty title→text mapping with
pairwise-distinct keys (as Python dict keys are), `vectorize_data` succeeds
and, after the persist/reload cycle of `load_vectorized_data`, the resulting
title→embedding mapping has exactly the input keys minus any literal
`.gitkeep` key, in order. -/
theorem vectorize_then_load_keys {V : Type} (embed_text : List Char → V)
    (d : List (List Char × List Char)) (hne : ¬ d = [])
    (hnd : (d.map Prod.fst).Nodup) :
    ∃ vd, vectorize_data embed_text d = some vd ∧
      (load_vectorized_data vd).map Prod.fst
        = (d.map Prod.fst).filter (fun k => k ≠ ".gitkeep".toList) := by
  rw [vectorize_data, if_neg hne]
  refine ⟨_, rfl, ?_⟩
  rw [load_vectorized_data, keys_vectorize_go embed_text d [] hnd (by simp)]
  rfl

/-- Witness for C7: the round-trip theorem applied to the concrete one-entry
mapping `{"t": "x"}` with a constant embedding collaborator. -/
theorem vectorize_then_load_keys_witness :
    ∃ vd, vectorize_data (fun _ => (0 : Nat)) [("t".toList, "x".toList)]
        = some vd ∧
      (load_vectorized_data vd).map Prod.fst
        = ([("t".toList, "x".toList)].map Prod.fst).filter
            (fun k => k ≠ ".gitkeep".toList) :=
  vectorize_then_load_keys (fun _ => (0 : Nat)) [("t".toList, "x".toList)]
    (by decide) (by decide)

/-! ### Lemmas on the query loop -/

theorem pySplitOnce_of_mem (sep : Char) (s : List Char) (h : sep ∈ s) :
    ∃ pr, pySplitOnce sep s = some pr := by
  induction s with
  | nil => simp at h
  | cons c rest ih =>
    by_cases hc : c = sep
    · exact ⟨([], rest), by simp [pySplitOnce, hc]⟩
    · have hr : sep ∈ rest := by
        rcases List.mem_cons.mp h with he | hm
        · exact absurd he.symm hc
        · exact hm
      obtain ⟨pr, hpr⟩ := ih hr
      exact ⟨(c :: pr.1, pr.2), by simp [pySplitOnce, hc, hpr]⟩

theorem displayNames_of_all_mem (es : List (List Char × List Char))
    (h : ∀ p ∈ es, '_' ∈ p.1) :
    displayNames es
      = some (es.map
          (fun p => ((pySplitOnce '_' p.1).map Prod.snd).getD [])) := by
  induction es with
  | nil => rfl
  | cons p es ih =>
    obtain ⟨pr, hpr⟩ := pySplitOnce_of_mem '_' p.1 (h p (by simp))
    simp [displayNames, displayName, hpr,
      ih (fun q hq => h q (List.mem_cons_of_mem p hq))]

/-! ### Resolution of claim C9 -/

/-- Claim C9 (confirmed): in a query turn whose context entries all carry an
underscore in their composite id, the displayed source name of each entry is
the remainder of its id after the first underscore (`"42_Diabetes Overview"`
displays as `"Diabetes Overview"`), and the printed reference list is a
de-duplicated set of those names: it has no duplicates and exactly the
members of the display-name list, so two entries with the same human-readable
name yield one reference entry. -/
theorem runTurn_display_and_references (es : List (List Char × List Char))
    (h : ∀ p ∈ es, '_' ∈ p.1) :
    (displayName "42_Diabetes Overview".toList
      = some "Diabetes Overview".toList) ∧
    ∃ names,
      runTurn (SearchResult.dict es) = Except.ok (names, names.dedup) ∧
      names = es.map (fun p => ((pySplitOnce '_' p.1).map Prod.snd).getD []) ∧
      names.dedup.Nodup ∧
      (∀ n, n ∈ names.dedup ↔ n ∈ names) := by
  refine ⟨by decide, ?_⟩
  refine ⟨_, ?_, rfl, List.nodup_dedup _, fun n => List.mem_dedup⟩
  have hd := displayNames_of_all_mem es h
  simp [runTurn, hd]

/-- Witness for C9: the theorem applied to a turn with two entries sharing
the human-readable name `A`, whose reference list collapses to one entry. -/
theorem runTurn_display_and_references_witness :
    (displayName "42_Diabetes Overview".toList
      = some "Diabetes Overview".toList) ∧
    ∃ names,
      runTurn (SearchResult.dict
          [("1_A".toList, "x".toList), ("2_A".toList, "y".toList)])
        = Except.ok (names, names.dedup) ∧
      names = [("1_A".toList, "x".toList), ("2_A".toList, "y".toList)].map
          (fun p => ((pySplitOnce '_' p.1).map Prod.snd).getD []) ∧
      names.dedup.Nodup ∧
      (∀ n, n ∈ names.dedup ↔ n ∈ names) :=
  runTurn_display_and_references
    [("1_A".toList, "x".toList), ("2_A".toList, "y".toList)] (by decide)

/-! ### Resolution of claim C1 -/

/-- Claim C1 (code_bug): when the vector-search collaborator returns a
non-mapping context result, the display loop of pipeline.py lines 195-198
calls `.items()` on it before the `isinstance` guard of lines 201-208 can
print its message and continue, so the turn raises `AttributeError` out of
the loop instead of aborting gracefully — the guard is unreachable for
non-mapping results. -/
theorem runTurn_nonMapping_raises :
    runTurn SearchResult.nonMapping = Except.error PyError.attributeError :=
  rfl

end RagPipeline
